import Mathlib

/-!
Verification development for the web-scraper-analyzer repository.

We shallowly embed the HTML-parsing layer (`src/parser/parsers.py`), the
fetch/retry layer (`src/scraper/utils.py` with `src/config.py`), the text
analysis layer (`src/analyzer/text_analysis.py`) and the sentence-length
computation of `main.py`, and prove the specified properties about these
embeddings.

HTML documents are modelled as rose trees of elements and text nodes, the
state `self.soup` of a parser as an optional list of top-level nodes
(`none` models a falsy `html_content`, for which `BeautifulSoup` is never
constructed).  BeautifulSoup's `find`/`find_all` search elements in
document (pre-order) order; `get_text(separator, strip=True)` joins the
stripped, non-empty string descendants with the separator; `decompose`
removes a subtree.  Python's `re.sub(r"\s+", " ", ·)` is modelled by
`collapseWS`, `str.strip()` by `trimChars`, and `str.split()` by `splitWs`.
-/

set_option autoImplicit false

namespace Scraper

/-- The space character, written via its code point. -/
def spc : Char := Char.ofNat 32

/-- A node of a parsed HTML document: an element with a tag name, an
attribute list and children, or a text node. -/
inductive HNode where
  | text (s : String)
  | elem (tag : String) (attrs : List (String × String)) (children : List HNode)
deriving Repr

mutual
/-- Boolean equality of nodes (for decidability of the nested inductive). -/
def nodeBEq : HNode → HNode → Bool
  | .text s, .text t => s = t
  | .elem t1 a1 c1, .elem t2 a2 c2 => t1 = t2 && a1 = a2 && nodesBEq c1 c2
  | _, _ => false

/-- Boolean equality of node lists. -/
def nodesBEq : List HNode → List HNode → Bool
  | [], [] => true
  | x :: xs, y :: ys => nodeBEq x y && nodesBEq xs ys
  | _, _ => false
end

/-- First value of an attribute, as `Tag.get`/`Tag[...]` on a
`html.parser` tree (which keeps the first occurrence of a duplicated
attribute). -/
def attrOf (attrs : List (String × String)) (key : String) : Option String :=
  (attrs.find? (fun p => p.1 = key)).map (fun p => p.2)

/-- Tag name of a node (text nodes have none). -/
def tagOf : HNode → String
  | .text _ => ""
  | .elem t _ _ => t

/-- Attribute lookup on a node. -/
def nodeAttr (n : HNode) (key : String) : Option String :=
  match n with
  | .text _ => none
  | .elem _ attrs _ => attrOf attrs key

mutual
/-- All string descendants of a node, in document order
(BeautifulSoup's `strings`). -/
def nodeTexts : HNode → List String
  | .text s => [s]
  | .elem _ _ cs => nodesTexts cs

/-- All string descendants of a list of nodes, in document order. -/
def nodesTexts : List HNode → List String
  | [] => []
  | n :: ns => nodeTexts n ++ nodesTexts ns
end

mutual
/-- All elements of a subtree in document (pre-order) order, the node
itself included — the traversal order of `find`/`find_all`. -/
def nodeElems : HNode → List HNode
  | .text _ => []
  | .elem t a cs => .elem t a cs :: nodesElems cs

/-- All elements below a list of nodes in document (pre-order) order. -/
def nodesElems : List HNode → List HNode
  | [] => []
  | n :: ns => nodeElems n ++ nodesElems ns
end

/-- `soup.find(...)`: the first element in document order satisfying the
match, `None` if there is none. -/
def findFirst (p : HNode → Bool) (soup : List HNode) : Option HNode :=
  ((nodesElems soup).filter p).head?

/-- `soup.find_all(...)`: every element in document order satisfying the
match. -/
def findAll (p : HNode → Bool) (soup : List HNode) : List HNode :=
  (nodesElems soup).filter p

mutual
/-- `element.decompose()` applied to every element of a subtree whose tag
is in `bad`, as done by `BaseParser.get_clean_text` (the whole subtree
rooted at a matching element is removed). -/
def pruneNode (bad : List String) : HNode → List HNode
  | .text s => [.text s]
  | .elem t a cs => if t ∈ bad then [] else [.elem t a (pruneNodes bad cs)]

/-- Subtree removal over a list of sibling nodes. -/
def pruneNodes (bad : List String) : List HNode → List HNode
  | [] => []
  | n :: ns => pruneNode bad n ++ pruneNodes bad ns
end

/-- Python `str.strip()` / BeautifulSoup stripping, on character lists. -/
def trimChars (l : List Char) : List Char :=
  ((l.dropWhile Char.isWhitespace).reverse.dropWhile Char.isWhitespace).reverse

/-- Join character lists with a separator (`separator.join(...)`). -/
def joinSep (sep : List Char) : List (List Char) → List Char
  | [] => []
  | [x] => x
  | x :: y :: t => x ++ sep ++ joinSep sep (y :: t)

/-- The stripped, non-empty string descendants of a list of nodes: what
`get_text(separator, strip=True)` joins. -/
def strippedTexts (l : List HNode) : List (List Char) :=
  ((nodesTexts l).map (fun s => trimChars s.data)).filter (fun c => c ≠ [])

/-- `get_text(separator, strip=True)` on a list of nodes. -/
def getTextList (sep : List Char) (l : List HNode) : List Char :=
  joinSep sep (strippedTexts l)

/-- `node.get_text(separator, strip=True)`. -/
def nodeGetText (sep : List Char) (n : HNode) : List Char :=
  getTextList sep [n]

/-- Python `re.sub(r"\s+", " ", ·)`: every maximal whitespace run becomes
one space (the run's last character position emits the space). -/
def collapseWS : List Char → List Char
  | [] => []
  | c :: cs =>
    if c.isWhitespace then
      if (cs.head?.elim false Char.isWhitespace) then collapseWS cs
      else spc :: collapseWS cs
    else c :: collapseWS cs

/-- Python `str.split()` (no argument): split on whitespace runs, with no
empty fields; `acc` holds the current field reversed. -/
def splitWsAux : List Char → List Char → List String
  | acc, [] => if acc.isEmpty then [] else [String.mk acc.reverse]
  | acc, c :: cs =>
    if c.isWhitespace then
      if acc.isEmpty then splitWsAux [] cs
      else String.mk acc.reverse :: splitWsAux [] cs
    else splitWsAux (c :: acc) cs

/-- Python `s.split()`. -/
def pySplit (s : String) : List String := splitWsAux [] s.data

/-- Substring test: does `pat` occur contiguously in the second list?
(`re.search` of an alternation of literal words does exactly this for
each word.) -/
def hasSub (pat : List Char) : List Char → Bool
  | [] => pat.isEmpty
  | c :: cs => pat.isPrefixOf (c :: cs) || hasSub pat cs

/-- Python `str.lower()` on one character (ASCII: shift the uppercase
letters `A`–`Z`, code points 65–90, up by 32). -/
def charLower (c : Char) : Char :=
  if 65 ≤ c.toNat ∧ c.toNat ≤ 90 then Char.ofNat (c.toNat + 32) else c

/-- Is the character an uppercase ASCII letter? -/
def charIsUpperA (c : Char) : Bool :=
  65 ≤ c.toNat && c.toNat ≤ 90

/-- Characters of a string, lowercased (for `str.lower()` and `re.I`
matching). -/
def lowerChars (s : String) : List Char := s.data.map charLower

/-- Case-insensitive search of an alternation of literal words, e.g.
`re.compile("(content|article|post|main)", re.I)` applied to an
attribute value. -/
def matchesAny (pats : List String) (v : String) : Bool :=
  pats.any (fun p => hasSub p.data (lowerChars v))

/-- `attrs={"class": re.compile(pats, re.I)}`: the element must have a
`class` attribute and the regex must match it. -/
def classMatches (pats : List String) (n : HNode) : Bool :=
  (nodeAttr n "class").elim false (fun v => matchesAny pats v)

/-- The parser state `self.soup`: `none` when `html_content` was falsy
(no `BeautifulSoup` object), otherwise the top-level nodes of the parsed
document. -/
abbrev ParserState := Option (List HNode)

/-- The tags whose subtrees `get_clean_text` decomposes. -/
def removedTags : List String := ["script", "style", "head", "header", "footer", "nav"]

/-- `BaseParser.get_title`: text of the first `title` element
(`title_tag.text` concatenates all string descendants), stripped;
`None` when there is no soup or no `title`. -/
def get_title (st : ParserState) : Option String :=
  st.bind fun soup =>
    (findFirst (fun n => tagOf n = "title") soup).map
      (fun t => String.mk (trimChars ((nodeTexts t).map String.data).flatten))

/-- The element `soup.find("meta", attrs={"name": "description"})`. -/
def findMetaDesc (soup : List HNode) : Option HNode :=
  findFirst (fun n => tagOf n = "meta" && nodeAttr n "name" = some "description") soup

/-- `BaseParser.get_meta_description`: `meta_desc.get("content", "").strip()`
of the first `meta[name=description]`, `None` when the soup is absent or
no such element exists. -/
def get_meta_description (st : ParserState) : Option String :=
  st.bind fun soup =>
    (findMetaDesc soup).map
      (fun m => String.mk (trimChars ((nodeAttr m "content").getD "").data))

/-- The class alternation of `get_main_content`. -/
def contentPats : List String := ["content", "article", "post", "main"]

/-- A candidate container of `get_main_content`: an `article`, `main` or
`div` element whose `class` matches the alternation. -/
def isMainCandidate (n : HNode) : Bool :=
  (tagOf n = "article" || tagOf n = "main" || tagOf n = "div") &&
    classMatches contentPats n

/-- `soup.find_all(["article", "main", "div"], attrs={"class": ...})` in
document order. -/
def mainCandidates (soup : List HNode) : List HNode :=
  findAll isMainCandidate soup

/-- `len(x.get_text(strip=True))`: the comparison key of the `max` call
in `get_main_content` (stripped string descendants, joined with the
empty separator). -/
def textKey (n : HNode) : Nat := (nodeGetText [] n).length

/-- One comparison step of Python's `max(l, key=key)`: the running best
`b` is replaced only when the next element's key is strictly greater. -/
def pyStep {α : Type} (key : α → Nat) (b a : α) : α :=
  if key b < key a then a else b

/-- Python `max(l, key=key)`: the first element attaining the maximal
key; defined only on a non-empty list. -/
def pyMax {α : Type} (key : α → Nat) : List α → Option α
  | [] => none
  | x :: xs => some (xs.foldl (pyStep key) x)

/-- `x.get_text(separator=" ", strip=True)`. -/
def nodeSpaceText (n : HNode) : String := String.mk (nodeGetText [spc] n)

/-- `x.get_text(strip=True)` (empty separator). -/
def nodeStripText (n : HNode) : String := String.mk (nodeGetText [] n)

/-- `BaseParser.get_main_content`: the largest candidate container by
`textKey` (first on ties, as Python's `max`), else the `body` text, else
`None`. -/
def get_main_content (st : ParserState) : Option String :=
  st.bind fun soup =>
    match pyMax textKey (mainCandidates soup) with
    | some c => some (nodeSpaceText c)
    | none => (findFirst (fun n => tagOf n = "body") soup).map nodeSpaceText

/-- `BaseParser.get_all_links`: `href` values of all anchors that have an
`href` attribute. -/
def get_all_links (st : ParserState) : List String :=
  match st with
  | none => []
  | some soup =>
    (findAll (fun n => tagOf n = "a" && (nodeAttr n "href").isSome) soup).map
      (fun n => (nodeAttr n "href").getD "")

/-- `BaseParser.get_images`: `src` values of all images that have a `src`
attribute. -/
def get_images (st : ParserState) : List String :=
  match st with
  | none => []
  | some soup =>
    (findAll (fun n => tagOf n = "img" && (nodeAttr n "src").isSome) soup).map
      (fun n => (nodeAttr n "src").getD "")

/-- `BaseParser.get_clean_text`: decomposes every `script`, `style`,
`head`, `header`, `footer`, `nav` subtree of `self.soup` **in place**
(the second component is the soup left behind), then returns
`re.sub(r"\s+", " ", soup.get_text(separator=" ", strip=True)).strip()`. -/
def get_clean_text (st : ParserState) : String × ParserState :=
  match st with
  | none => ("", none)
  | some soup =>
    let pruned := pruneNodes removedTags soup
    (String.mk (trimChars (collapseWS (getTextList [spc] pruned))), some pruned)

/-- A Python exception raised by an accessor. -/
inductive PyErr where
  | typeError
deriving DecidableEq, Repr

/-- The tag list `["a", "span", "div", "p"]` of the author patterns. -/
def authorTags : List String := ["a", "span", "div", "p"]

/-- `attrs={"rel": "author"}`: `rel` is a multi-valued attribute, the
string matches any of its whitespace-separated items. -/
def relMatchesAuthor (n : HNode) : Bool :=
  (nodeAttr n "rel").elim false (fun v => (pySplit v).contains "author")

/-- `ArticleParser.get_author`.  The first three patterns are faithful
`find` calls; the fourth pattern of the source,
`self.soup.find(["a", "span", "div", "p"], **{"name": re.compile("author", re.I)})`,
passes `name` both positionally and as a keyword, so reaching it raises
`TypeError: find() got multiple values for argument "name"` — modelled
as `Except.error .typeError`. -/
def get_author (st : ParserState) : Except PyErr (Option String) :=
  match st with
  | none => .ok none
  | some soup =>
    match findFirst (fun n => authorTags.contains (tagOf n) &&
        classMatches ["author", "byline"] n) soup with
    | some t => .ok (some (nodeStripText t))
    | none =>
    match findFirst (fun n => authorTags.contains (tagOf n) &&
        relMatchesAuthor n) soup with
    | some t => .ok (some (nodeStripText t))
    | none =>
    match findFirst (fun n => authorTags.contains (tagOf n) &&
        nodeAttr n "itemprop" = some "author") soup with
    | some t => .ok (some (nodeStripText t))
    | none => .error .typeError

/-- The date-class fallback of `get_publish_date`: first `span`, `div` or
`p` whose class matches `(date|time|publish)`, its stripped text. -/
def dateClassFallback (soup : List HNode) : Option String :=
  (findFirst (fun n => (["span", "div", "p"] : List String).contains (tagOf n) &&
      classMatches ["date", "time", "publish"] n) soup).map nodeStripText

/-- `ArticleParser.get_publish_date`: meta `article:published_time` or
`og:published_time` (its raw `content`, possibly `None`), else the first
`time` element's `datetime` when present, else the date-class fallback. -/
def get_publish_date (st : ParserState) : Option String :=
  match st with
  | none => none
  | some soup =>
    match findFirst (fun n => tagOf n = "meta" &&
        (nodeAttr n "property" = some "article:published_time" ||
         nodeAttr n "property" = some "og:published_time")) soup with
    | some m => nodeAttr m "content"
    | none =>
      match findFirst (fun n => tagOf n = "time") soup with
      | some t =>
        match nodeAttr t "datetime" with
        | some d => some d
        | none => dateClassFallback soup
      | none => dateClassFallback soup

/-- A value returned by an accessor, as observed by a caller: `None`, a
string, a list of strings, or a raised exception. -/
inductive PyVal where
  | vnone
  | vstr (s : String)
  | vlist (l : List String)
  | verr (e : PyErr)
deriving DecidableEq, Repr

/-- Wrap an optional string result. -/
def optVal : Option String → PyVal
  | none => .vnone
  | some s => .vstr s

/-- The eight accessors of `ArticleParser` (those of `BaseParser`
included). -/
inductive Accessor where
  | title
  | metaDescription
  | mainContent
  | allLinks
  | images
  | cleanText
  | author
  | publishDate
deriving DecidableEq, Repr

/-- Invoke one accessor on the current parser state, returning its value
and the state left behind (only `get_clean_text` rewrites `self.soup`;
every other accessor only reads it). -/
def callAccessor : Accessor → ParserState → PyVal × ParserState
  | .title, st => (optVal (get_title st), st)
  | .metaDescription, st => (optVal (get_meta_description st), st)
  | .mainContent, st => (optVal (get_main_content st), st)
  | .allLinks, st => (.vlist (get_all_links st), st)
  | .images, st => (.vlist (get_images st), st)
  | .cleanText, st => ((.vstr (get_clean_text st).1), (get_clean_text st).2)
  | .author, st =>
    (match get_author st with
     | .ok o => optVal o
     | .error e => .verr e, st)
  | .publishDate, st => (optVal (get_publish_date st), st)

/-! ## The fetcher (`src/scraper/utils.py` with `src/config.py`)

`fetch_url` sleeps a jittered delay, issues one GET, and on a
`RequestException` (any transport error or, via `raise_for_status`, any
non-2xx status — all caught by the `except` clause) sleeps twice the
jittered delay and recurses while the retry budget is positive.  The
backend is modelled as a function from the attempt index to the optional
response body (`none` = the attempt raises a `RequestException`), the
random stream `random.random()` as a function from the sample index to a
rational in `[0, 1)`, and the observable behaviour as the list of
sleep/GET events together with the returned value. -/

/-- `REQUESTS_PER_MINUTE = 20` from `src/config.py`. -/
def REQUESTS_PER_MINUTE : ℚ := 20

/-- `DELAY_BETWEEN_REQUESTS = 60 / REQUESTS_PER_MINUTE` from
`src/config.py`. -/
def DELAY_BETWEEN_REQUESTS : ℚ := 60 / REQUESTS_PER_MINUTE

/-- An observable side effect of `fetch_url`: a sleep of some duration in
seconds, or one GET of the url. -/
inductive FetchEvent where
  | sleep (d : ℚ)
  | get (url : String)
deriving DecidableEq, Repr

/-- Is the event a GET attempt? -/
def isGet : FetchEvent → Bool
  | .get _ => true
  | _ => false

/-- `fetch_url(url, session, retry)`: `k` is the index of the current
attempt in the backend/random streams.  Per call: sample the jitter,
sleep `DELAY_BETWEEN_REQUESTS * (0.5 + random())`, attempt the GET; on
success return the body; on failure sleep `delay * 2` and recurse when
`retry > 0`, else return `None`. -/
def fetch_url (backend : Nat → Option String) (rand : Nat → ℚ) (url : String) :
    Nat → Nat → List FetchEvent × Option String
  | k, retry =>
    let delay := DELAY_BETWEEN_REQUESTS * (1/2 + rand k)
    match backend k with
    | some body => ([.sleep delay, .get url], some body)
    | none =>
      match retry with
      | 0 => ([.sleep delay, .get url], none)
      | r + 1 =>
        let rest := fetch_url backend rand url (k + 1) r
        (.sleep delay :: .get url :: .sleep (delay * 2) :: rest.1, rest.2)

/-- Number of GET attempts `fetch_url` performs: one per call, plus the
recursion while the attempt fails and budget remains. -/
def numAttempts (backend : Nat → Option String) : Nat → Nat → Nat
  | k, retry =>
    match backend k with
    | some _ => 1
    | none =>
      match retry with
      | 0 => 1
      | r + 1 => 1 + numAttempts backend (k + 1) r

/-! ## The text analyzer (`src/analyzer/text_analysis.py`) -/

/-- Python's `string.punctuation`: the ASCII ranges 33–47, 58–64, 91–96
and 123–126. -/
def punctuation : List Char :=
  (List.range 128).filterMap (fun n =>
    if (33 ≤ n && n ≤ 47) || (58 ≤ n && n ≤ 64) ||
       (91 ≤ n && n ≤ 96) || (123 ≤ n && n ≤ 126) then
      some (Char.ofNat n)
    else none)

/-- Python `str.lower()` (per-character). -/
def strLower (s : String) : String := String.mk (lowerChars s)

/-- `text.translate(str.maketrans("", "", string.punctuation))`. -/
def removePunct (s : String) : String :=
  String.mk (s.data.filter (fun c => !(punctuation.contains c)))

/-- A `TextAnalyzer` instance: the text, the stopword set loaded from the
NLTK corpus for the language (empty for an unsupported language), and the
external `word_tokenize` function, kept abstract. -/
structure TextAnalyzer where
  text : String
  stop_words : List String
  tokenize : String → List String

/-- `TextAnalyzer.preprocess(lowercase, remove_punctuation,
remove_stopwords)`. -/
def preprocess (ta : TextAnalyzer)
    (lowercase remove_punctuation remove_stopwords : Bool) : List String :=
  let t1 := if lowercase then strLower ta.text else ta.text
  let t2 := if remove_punctuation then removePunct t1 else t1
  let toks := ta.tokenize t2
  if remove_stopwords then toks.filter (fun t => !(ta.stop_words.contains t))
  else toks

/-- Add one occurrence of a token to a counter association list,
preserving first-insertion key order (Python dict semantics). -/
def bump : List (String × Nat) → String → List (String × Nat)
  | [], t => [(t, 1)]
  | (k, c) :: r, t => if k = t then (k, c + 1) :: r else (k, c) :: bump r t

/-- `collections.Counter(tokens)` as an association list in
first-occurrence key order. -/
def counter (ts : List String) : List (String × Nat) := ts.foldl bump []

/-- Stable descending insertion by count: walk past strictly greater
counts only, so an earlier entry stays before later entries of equal
count. -/
def insertDesc (p : String × Nat) : List (String × Nat) → List (String × Nat)
  | [] => [p]
  | q :: qs => if p.2 < q.2 then q :: insertDesc p qs else p :: q :: qs

/-- Stable sort by descending count (the order of
`sorted(..., key=itemgetter(1), reverse=True)` and of `heapq.nlargest`,
both stable). -/
def sortDesc (l : List (String × Nat)) : List (String × Nat) :=
  l.foldr insertDesc []

/-- `Counter.most_common(n)`: the `n` largest entries by count, ties in
first-insertion order. -/
def most_common (n : Nat) (l : List (String × Nat)) : List (String × Nat) :=
  (sortDesc l).take n

/-- `TextAnalyzer.get_word_frequency(top_n, min_word_length)`: preprocess
with all defaults, keep tokens of length `≥ min_word_length`, count, and
hand the counter to `most_common` when `top_n` is truthy (Python's
`if top_n:` is false for both `None` and `0`). -/
def get_word_frequency (ta : TextAnalyzer) (top_n : Option Nat)
    (min_word_length : Nat) : List (String × Nat) :=
  let tokens := (preprocess ta true true true).filter
    (fun t => min_word_length ≤ t.length)
  let freq := counter tokens
  match top_n with
  | some n => if n = 0 then freq else most_common n freq
  | none => freq

/-- `TextAnalyzer.get_sentiment`: with TextBlob importable, its polarity
and subjectivity; on `ImportError`, the neutral `{0, 0}`. -/
def get_sentiment (textblob_available : Bool) (blobSentiment : String → ℚ × ℚ)
    (text : String) : ℚ × ℚ :=
  if textblob_available then blobSentiment text else (0, 0)

/-- One step of the entity-grouping loop of `extract_entities`: append a
surface string under its entity-type key (insertion-ordered dict of
lists). -/
def addEntity : List (String × List String) → String → String →
    List (String × List String)
  | [], ty, tx => [(ty, [tx])]
  | (t, l) :: r, ty, tx =>
    if t = ty then (t, l ++ [tx]) :: r else (t, l) :: addEntity r ty tx

/-- `TextAnalyzer.extract_entities`: with spaCy importable, group the
model's entities (label, surface) by label, duplicates retained; on
`ImportError`, the empty mapping. -/
def extract_entities (spacy_available : Bool)
    (docEnts : String → List (String × String)) (text : String) :
    List (String × List String) :=
  if spacy_available then
    (docEnts text).foldl (fun m e => addEntity m e.1 e.2) []
  else []

/-- The five scoring functions of the optional `textstat` module, kept
abstract. -/
structure TextstatModule where
  flesch_reading_ease : String → ℚ
  flesch_kincaid_grade : String → ℚ
  smog_index : String → ℚ
  coleman_liau_index : String → ℚ
  automated_readability_index : String → ℚ

/-- `TextAnalyzer.get_readability_scores`: with textstat importable, the
five named metrics; on `ImportError`, the empty mapping. -/
def get_readability_scores (textstat_available : Bool) (ts : TextstatModule)
    (text : String) : List (String × ℚ) :=
  if textstat_available then
    [("flesch_reading_ease", ts.flesch_reading_ease text),
     ("flesch_kincaid_grade", ts.flesch_kincaid_grade text),
     ("smog_index", ts.smog_index text),
     ("coleman_liau_index", ts.coleman_liau_index text),
     ("automated_readability_index", ts.automated_readability_index text)]
  else []

/-! ## `main.py` -/

/-- The `average_sentence_length` field of `analyze_content`:
`sum(len(s.split()) for s in sentences) / len(sentences) if sentences
else 0` — the conditional expression evaluates its condition first, so
the division only runs on a non-empty list. -/
def average_sentence_length (sentences : List String) : ℚ :=
  if sentences = [] then 0
  else ((sentences.map (fun s => ((pySplit s).length : ℚ))).sum) /
    (sentences.length : ℚ)

/-- The analyzer of the concrete word-frequency test of the spec. -/
def catAnalyzer : TextAnalyzer :=
  { text := "the cat sat on the mat the cat ran"
    stop_words := ["the", "on"]
    tokenize := pySplit }

/-! ## Concrete documents used as witnesses and counterexamples -/

/-- A document holding only an empty `body`, with no author or date
markers. -/
def bodyOnlyDoc : List HNode :=
  [.elem "html" [] [.elem "body" [] []]]

/-- A document whose `title` lives in `head` and whose `body` holds plain
text. -/
def titleDoc : List HNode :=
  [.elem "html" []
    [.elem "head" [] [.elem "title" [] [.text "T"]],
     .elem "body" [] [.text "x"]]]

/-- A document with two candidate containers of different visible-text
lengths. -/
def twoCandidateDoc : List HNode :=
  [.elem "body" []
    [.elem "div" [("class", "content")] [.text "ab", .text "cd"],
     .elem "div" [("class", "post")] [.text "abcde"]]]

/-- A document whose first `meta[name=description]` has no `content`
attribute. -/
def metaNoContentDoc : List HNode :=
  [.elem "html" []
    [.elem "head" [] [.elem "meta" [("name", "description")] []]]]

instance : DecidableEq (Except PyErr (Option String)) := fun a b =>
  match a, b with
  | .ok x, .ok y => decidable_of_iff (x = y) (by simp)
  | .ok _, .error _ => .isFalse (fun h => Except.noConfusion h)
  | .error _, .ok _ => .isFalse (fun h => Except.noConfusion h)
  | .error x, .error y => decidable_of_iff (x = y) (by simp)

/-! ## Theorems -/

mutual
theorem nodeBEq_iff : ∀ a b : HNode, nodeBEq a b = true ↔ a = b
  | .text s, .text t => by simp [nodeBEq]
  | .text _, .elem _ _ _ => by simp [nodeBEq]
  | .elem _ _ _, .text _ => by simp [nodeBEq]
  | .elem t1 a1 c1, .elem t2 a2 c2 => by
      simp [nodeBEq, nodesBEq_iff c1 c2, and_assoc]

theorem nodesBEq_iff : ∀ a b : List HNode, nodesBEq a b = true ↔ a = b
  | [], [] => by simp [nodesBEq]
  | [], _ :: _ => by simp [nodesBEq]
  | _ :: _, [] => by simp [nodesBEq]
  | x :: xs, y :: ys => by
      simp [nodesBEq, nodeBEq_iff x y, nodesBEq_iff xs ys]
end

instance : DecidableEq HNode := fun a b => decidable_of_iff _ (nodeBEq_iff a b)


/-- C1: against a backend that fails on every attempt, `fetch_url` with a
retry budget of `retry` performs exactly `retry + 1` GET attempts (the
initial attempt plus the retries) and returns the failure value `None`;
the `except RequestException` clause catches every failing attempt, so no
exception reaches the caller (the embedding is a total function into
`Option`). -/
theorem fetch_retries_exhausted (backend : Nat → Option String)
    (rand : Nat → ℚ) (url : String) (k retry : Nat)
    (hfail : ∀ n, backend n = none) :
    ((fetch_url backend rand url k retry).1.countP isGet) = retry + 1 ∧
    (fetch_url backend rand url k retry).2 = none := by
  induction retry generalizing k with
  | zero => simp [fetch_url, hfail, isGet]
  | succ r ih =>
    have h := ih (k + 1)
    simp only [fetch_url, hfail] at h ⊢
    simp [isGet, h.1, h.2, Nat.add_comm]

/-- Witness for C1 at `retry = 3`: exactly `4` attempts, result `None`. -/
theorem fetch_retries_exhausted_witness :
    ((fetch_url (fun _ => none) (fun _ => 1/2) "u" 0 3).1.countP isGet) = 3 + 1 ∧
    (fetch_url (fun _ => none) (fun _ => 1/2) "u" 0 3).2 = none :=
  fetch_retries_exhausted (fun _ => none) (fun _ => 1/2) "u" 0 3 (fun _ => rfl)

/-- C9: the average-sentence-length computation of `analyze_content`
guards the division behind the non-emptiness test, returns `0` on an
empty sentence list, and otherwise the mean whitespace-token count per
sentence (so `average * length = total token count`, with a non-zero
denominator). -/
theorem average_sentence_length_spec :
    average_sentence_length [] = 0 ∧
    ∀ sentences : List String, sentences ≠ [] →
      (sentences.length : ℚ) ≠ 0 ∧
      average_sentence_length sentences =
        ((sentences.map (fun s => ((pySplit s).length : ℚ))).sum) /
          (sentences.length : ℚ) ∧
      average_sentence_length sentences * (sentences.length : ℚ) =
        (sentences.map (fun s => ((pySplit s).length : ℚ))).sum := by
  refine ⟨by simp [average_sentence_length], fun ss h => ?_⟩
  have hlen : (ss.length : ℚ) ≠ 0 := by
    have := List.length_pos.mpr h
    exact_mod_cast this.ne'
  refine ⟨hlen, by simp [average_sentence_length, h], ?_⟩
  simp [average_sentence_length, h, div_mul_cancel₀ _ hlen]

/-- Witness for C9 on the two-sentence list `["a b", "c"]`. -/
theorem average_sentence_length_witness :
    average_sentence_length ["a b", "c"] =
      ((["a b", "c"].map (fun s => ((pySplit s).length : ℚ))).sum) /
        ((["a b", "c"] : List String).length : ℚ) :=
  (average_sentence_length_spec.2 ["a b", "c"] (by decide)).2.1

/-- C8: with the optional backend unavailable (`ImportError` on the
import), `get_sentiment` returns the neutral `{polarity: 0,
subjectivity: 0}`, `extract_entities` the empty mapping and
`get_readability_scores` the empty mapping; all three are total
functions, so none aborts the pipeline. -/
theorem optional_backends_degrade (blob : String → ℚ × ℚ)
    (ents : String → List (String × String)) (ts : TextstatModule)
    (text : String) :
    get_sentiment false blob text = (0, 0) ∧
    extract_entities false ents text = [] ∧
    get_readability_scores false ts text = [] :=
  ⟨rfl, rfl, rfl⟩

/-- C10: when the first `meta[name=description]` element has no `content`
attribute, `get_meta_description` returns the present empty string; the
result is `None` exactly when the document is empty (no soup) or no such
meta element exists. -/
theorem get_meta_description_spec (soup : List HNode) :
    (∀ m, findMetaDesc soup = some m → nodeAttr m "content" = none →
      get_meta_description (some soup) = some "") ∧
    (get_meta_description (some soup) = none ↔ findMetaDesc soup = none) ∧
    get_meta_description none = none := by
  refine ⟨fun m hm hc => ?_, ?_, rfl⟩
  · simp [get_meta_description, hm, hc]
    decide
  · simp only [get_meta_description, Option.some_bind]
    cases h : findMetaDesc soup <;> simp [h]

/-- Witness for C10 on a document whose `meta[name=description]` lacks
`content`. -/
theorem get_meta_description_witness :
    get_meta_description (some metaNoContentDoc) = some "" :=
  (get_meta_description_spec metaNoContentDoc).1
    (.elem "meta" [("name", "description")] []) (by decide) (by decide)

/-- Every `fetch_url` call performs at least one attempt. -/
theorem one_le_numAttempts (backend : Nat → Option String) (k retry : Nat) :
    1 ≤ numAttempts backend k retry := by
  cases h : backend k <;> cases retry <;> simp [numAttempts, h]

/-- C7: the event trace of `fetch_url` consists of one block per GET
attempt: a sleep of `DELAY_BETWEEN_REQUESTS * (0.5 + rᵢ)` (the `i`-th
sampled random value) immediately before the attempt — the first
included — and, exactly when a further attempt follows (failure with
retries remaining), an additional sleep of twice that same jittered
delay; and with `0 ≤ r < 1` every jittered delay lies in
`[base/2, 3·base/2)` for `base = DELAY_BETWEEN_REQUESTS =
60 / REQUESTS_PER_MINUTE`. -/
theorem fetch_url_jitter (backend : Nat → Option String) (rand : Nat → ℚ)
    (url : String) (k retry : Nat) :
    (fetch_url backend rand url k retry).1 =
      (List.range (numAttempts backend k retry)).flatMap (fun i =>
        .sleep (DELAY_BETWEEN_REQUESTS * (1/2 + rand (k + i))) :: .get url ::
        (if i + 1 < numAttempts backend k retry then
          [.sleep (DELAY_BETWEEN_REQUESTS * (1/2 + rand (k + i)) * 2)]
        else [])) ∧
    (∀ n, 0 ≤ rand n → rand n < 1 →
      DELAY_BETWEEN_REQUESTS / 2 ≤ DELAY_BETWEEN_REQUESTS * (1/2 + rand n) ∧
      DELAY_BETWEEN_REQUESTS * (1/2 + rand n) < 3 / 2 * DELAY_BETWEEN_REQUESTS) := by
  have hD : DELAY_BETWEEN_REQUESTS = 3 := by
    norm_num [DELAY_BETWEEN_REQUESTS, REQUESTS_PER_MINUTE]
  refine ⟨?_, fun n h0 h1 => by rw [hD]; constructor <;> linarith⟩
  induction retry generalizing k with
  | zero =>
    cases h : backend k <;>
      simp [fetch_url, numAttempts, h, List.range_succ]
  | succ r ih =>
    cases h : backend k with
    | some body => simp [fetch_url, numAttempts, h, List.range_succ]
    | none =>
      have hM : 1 ≤ numAttempts backend (k + 1) r :=
        one_le_numAttempts backend (k + 1) r
      have e1 : numAttempts backend k (r + 1) =
          numAttempts backend (k + 1) r + 1 := by
        simp [numAttempts, h, Nat.add_comm]
      have efun : (fun i => FetchEvent.sleep
            (DELAY_BETWEEN_REQUESTS * (1/2 + rand (k + (i + 1)))) :: .get url ::
            (if i + 1 + 1 < numAttempts backend (k + 1) r + 1 then
              [.sleep (DELAY_BETWEEN_REQUESTS * (1/2 + rand (k + (i + 1))) * 2)]
            else [])) =
          (fun i => FetchEvent.sleep
            (DELAY_BETWEEN_REQUESTS * (1/2 + rand (k + 1 + i))) :: .get url ::
            (if i + 1 < numAttempts backend (k + 1) r then
              [.sleep (DELAY_BETWEEN_REQUESTS * (1/2 + rand (k + 1 + i)) * 2)]
            else [])) := by
        funext i
        have : k + (i + 1) = k + 1 + i := by omega
        rw [this]
        congr 2
        simp [Nat.add_lt_add_iff_right]
      rw [e1, List.range_succ_eq_map]
      simp only [List.flatMap_cons, List.flatMap_map, Function.comp_def]
      rw [if_pos (by omega)]
      simp only [Nat.add_zero, efun]
      simp [fetch_url, h, ih (k + 1)]

/-- Witness for C7: the delay bounds at the concrete sample `r = 1/2`. -/
theorem fetch_url_jitter_witness :
    DELAY_BETWEEN_REQUESTS / 2 ≤ DELAY_BETWEEN_REQUESTS * (1/2 + (1/2 : ℚ)) ∧
    DELAY_BETWEEN_REQUESTS * (1/2 + (1/2 : ℚ)) < 3 / 2 * DELAY_BETWEEN_REQUESTS :=
  (fetch_url_jitter (fun _ => none) (fun _ => 1/2) "u" 0 3).2 0
    (by norm_num) (by norm_num)

/-- Subtree removal distributes over sibling concatenation. -/
theorem pruneNodes_append (bad : List String) (a b : List HNode) :
    pruneNodes bad (a ++ b) = pruneNodes bad a ++ pruneNodes bad b := by
  induction a with
  | nil => rfl
  | cons x xs ih => simp [pruneNodes, ih]

mutual
/-- Removing the bad subtrees twice is the same as removing them once
(single node). -/
theorem pruneNode_idem (bad : List String) :
    ∀ n : HNode, pruneNodes bad (pruneNode bad n) = pruneNode bad n
  | .text s => by simp [pruneNode, pruneNodes]
  | .elem t a cs => by
    by_cases h : t ∈ bad
    · simp [pruneNode, h, pruneNodes]
    · simp [pruneNode, h, pruneNodes, pruneNodes_idem bad cs]

/-- Removing the bad subtrees twice is the same as removing them once
(node list). -/
theorem pruneNodes_idem (bad : List String) :
    ∀ l : List HNode, pruneNodes bad (pruneNodes bad l) = pruneNodes bad l
  | [] => rfl
  | n :: ns => by
    simp [pruneNodes, pruneNodes_append, pruneNode_idem bad n,
      pruneNodes_idem bad ns]
end

/-- C3 counterexample: the accessors are not pure functions of the parsed
document across call sequences — `get_clean_text` decomposes subtrees of
`self.soup` itself, not of a working copy.  On `titleDoc`, `get_title`
returns `"T"`, but after one `get_clean_text` call (which removes the
`head`, title included) it returns `None`. -/
theorem accessor_sequence_counterexample :
    (callAccessor .title (some titleDoc)).1 = .vstr "T" ∧
    (callAccessor .title ((callAccessor .cleanText (some titleDoc)).2)).1 =
      .vnone ∧
    PyVal.vstr "T" ≠ PyVal.vnone := by decide

/-- C3 (amended): every accessor other than `get_clean_text` reads
`self.soup` without changing it, so repeating it returns an identical
outcome; `get_clean_text` rewrites `self.soup` (removing the
script/style/head/header/footer/nav subtrees in place), but is itself
idempotent in both its returned string and the state it leaves. -/
theorem accessors_pure_except_clean_text :
    (∀ (st : ParserState) (a : Accessor), a ≠ .cleanText →
      (callAccessor a st).2 = st) ∧
    (∀ (st : ParserState) (a : Accessor), a ≠ .cleanText →
      callAccessor a ((callAccessor a st).2) = callAccessor a st) ∧
    (∀ st : ParserState,
      callAccessor .cleanText ((callAccessor .cleanText st).2) =
        callAccessor .cleanText st) := by
  have hro : ∀ (st : ParserState) (a : Accessor), a ≠ .cleanText →
      (callAccessor a st).2 = st := by
    intro st a h
    cases a <;> first | rfl | exact absurd rfl h
  refine ⟨hro, fun st a h => by rw [hro st a h], fun st => ?_⟩
  cases st with
  | none => rfl
  | some soup => simp [callAccessor, get_clean_text, pruneNodes_idem]

/-- Witness for C3's amended theorem: `get_title` leaves the parser state
of `titleDoc` unchanged and repeats identically. -/
theorem accessors_pure_witness :
    (callAccessor .title (some titleDoc)).2 = some titleDoc ∧
    callAccessor .title ((callAccessor .title (some titleDoc)).2) =
      callAccessor .title (some titleDoc) :=
  ⟨accessors_pure_except_clean_text.1 (some titleDoc) .title (by decide),
   accessors_pure_except_clean_text.2.1 (some titleDoc) .title (by decide)⟩

/-- The fold of Python's `max` splits its input around its result: every
earlier element has a strictly smaller key (so the result is the first
maximum) and every later element a smaller-or-equal key. -/
theorem pyFold_split {α : Type} (key : α → Nat) :
    ∀ (xs : List α) (x : α), ∃ l₁ l₂,
      x :: xs = l₁ ++ (xs.foldl (pyStep key) x) :: l₂ ∧
      (∀ y ∈ l₁, key y < key (xs.foldl (pyStep key) x)) ∧
      (∀ y ∈ l₂, key y ≤ key (xs.foldl (pyStep key) x)) := by
  intro xs
  induction xs with
  | nil => exact fun x => ⟨[], [], rfl, by simp, by simp⟩
  | cons a t ih =>
    intro x
    simp only [List.foldl_cons]
    by_cases hxa : key x < key a
    · rw [show pyStep key x a = a from if_pos hxa]
      obtain ⟨l₁, l₂, heq, h₁, h₂⟩ := ih a
      refine ⟨x :: l₁, l₂, by rw [List.cons_append, ← heq], ?_, h₂⟩
      intro y hy
      rcases List.mem_cons.mp hy with rfl | hy
      · have ham : key a ≤ key (t.foldl (pyStep key) a) := by
          have hmem : a ∈ l₁ ++ (t.foldl (pyStep key) a) :: l₂ := by
            rw [← heq]; exact List.mem_cons_self a t
          rcases List.mem_append.mp hmem with h | h
          · exact le_of_lt (h₁ _ h)
          · rcases List.mem_cons.mp h with h | h
            · exact le_of_eq (congrArg key h)
            · exact h₂ _ h
        exact lt_of_lt_of_le hxa ham
      · exact h₁ y hy
    · rw [show pyStep key x a = x from if_neg hxa]
      obtain ⟨l₁, l₂, heq, h₁, h₂⟩ := ih x
      cases l₁ with
      | nil =>
        simp only [List.nil_append] at heq
        injection heq with hxm htl
        refine ⟨[], a :: t, by rw [List.nil_append, ← hxm], by simp, ?_⟩
        intro y hy
        rcases List.mem_cons.mp hy with rfl | hy
        · rw [← hxm]; omega
        · rw [htl] at hy; exact h₂ y hy
      | cons z zs =>
        simp only [List.cons_append] at heq
        injection heq with hzx htl
        have hxm : key x < key (t.foldl (pyStep key) x) := by
          have := h₁ z (List.mem_cons_self z zs)
          rwa [← hzx] at this
        refine ⟨x :: a :: zs, l₂, ?_, ?_, h₂⟩
        · conv_lhs => rw [htl]
          simp
        · intro y hy
          rcases List.mem_cons.mp hy with rfl | hy
          · exact hxm
          rcases List.mem_cons.mp hy with rfl | hy
          · omega
          · exact h₁ y (List.mem_cons_of_mem z hy)

/-- `pyMax` returns the first element attaining the maximal key. -/
theorem pyMax_spec {α : Type} (key : α → Nat) (l : List α) (c : α)
    (h : pyMax key l = some c) :
    ∃ l₁ l₂, l = l₁ ++ c :: l₂ ∧ (∀ y ∈ l₁, key y < key c) ∧
      (∀ y ∈ l₂, key y ≤ key c) := by
  match l with
  | [] => exact absurd h (by simp [pyMax])
  | x :: xs =>
    have hc : xs.foldl (pyStep key) x = c := by
      simpa [pyMax] using h
    obtain ⟨l₁, l₂, heq, h₁, h₂⟩ := pyFold_split key xs x
    rw [hc] at heq h₁ h₂
    exact ⟨l₁, l₂, heq, h₁, h₂⟩

/-- C4: when the document has candidate containers (`article`/`main`/`div`
elements whose class matches `(content|article|post|main)` case-
insensitively, collected in document order), `get_main_content` returns
the space-joined visible text of the candidate with the greatest
visible-text length (`len(get_text(strip=True))`), earlier candidates of
equal length winning; with no candidates it returns the `body` element's
space-joined visible text, and with no `body` either (or no soup at all)
it returns `None`. -/
theorem get_main_content_spec (soup : List HNode) :
    (mainCandidates soup ≠ [] →
      ∃ c l₁ l₂, mainCandidates soup = l₁ ++ c :: l₂ ∧
        get_main_content (some soup) = some (nodeSpaceText c) ∧
        (∀ y ∈ l₁, textKey y < textKey c) ∧
        (∀ y ∈ l₂, textKey y ≤ textKey c)) ∧
    (mainCandidates soup = [] →
      (∀ b, findFirst (fun n => tagOf n = "body") soup = some b →
        get_main_content (some soup) = some (nodeSpaceText b)) ∧
      (findFirst (fun n => tagOf n = "body") soup = none →
        get_main_content (some soup) = none)) ∧
    get_main_content none = none := by
  refine ⟨fun hne => ?_, fun hnil => ?_, rfl⟩
  · obtain ⟨x, xs, hl⟩ : ∃ x xs, mainCandidates soup = x :: xs := by
      cases h : mainCandidates soup with
      | nil => exact absurd h hne
      | cons x xs => exact ⟨x, xs, rfl⟩
    have hmax : pyMax textKey (mainCandidates soup) =
        some (xs.foldl (pyStep textKey) x) := by
      rw [hl]; rfl
    obtain ⟨l₁, l₂, heq, h₁, h₂⟩ :=
      pyMax_spec textKey (mainCandidates soup) _ hmax
    exact ⟨_, l₁, l₂, heq, by simp [get_main_content, hmax], h₁, h₂⟩
  · constructor
    · intro b hb
      have hmax : pyMax textKey (mainCandidates soup) = none := by
        rw [hnil]; rfl
      simp [get_main_content, hmax, hb]
    · intro hb
      have hmax : pyMax textKey (mainCandidates soup) = none := by
        rw [hnil]; rfl
      simp [get_main_content, hmax, hb]

/-- Witness for C4 on a document with two candidate containers of
visible-text lengths 4 and 5. -/
theorem get_main_content_witness :
    ∃ c l₁ l₂, mainCandidates twoCandidateDoc = l₁ ++ c :: l₂ ∧
      get_main_content (some twoCandidateDoc) = some (nodeSpaceText c) ∧
      (∀ y ∈ l₁, textKey y < textKey c) ∧
      (∀ y ∈ l₂, textKey y ≤ textKey c) :=
  (get_main_content_spec twoCandidateDoc).1 (by decide)

/-- C2 (failing input): on the document `<html><body></body></html>`,
which has no author or date markers, `get_publish_date` does return
`None`, but `get_author` reaches its fourth pattern,
`self.soup.find(["a", "span", "div", "p"], **{"name": re.compile("author", re.I)})`,
whose expansion passes the parameter `name` twice, and raises
`TypeError` instead of returning `None` (the claim, the spec and the
function's own trailing `return None` all expect `None`). -/
theorem get_author_raises_on_markerless_doc :
    get_author (some bodyOnlyDoc) = .error .typeError ∧
    get_publish_date (some bodyOnlyDoc) = none ∧
    get_author none = .ok none := by
  refine ⟨by decide, by decide, rfl⟩

/-- `Char.ofNat` round-trips through `toNat` on valid code points. -/
theorem toNat_ofNat_valid (n : Nat) (h : n.isValidChar) :
    (Char.ofNat n).toNat = n := by
  rw [Char.ofNat, dif_pos h]
  rfl

/-- Lowercasing never yields an uppercase ASCII letter. -/
theorem charLower_not_upper (c : Char) : charIsUpperA (charLower c) = false := by
  by_cases h : 65 ≤ c.toNat ∧ c.toNat ≤ 90
  · have hv : (c.toNat + 32).isValidChar := Or.inl (by omega)
    rw [charLower, if_pos h, charIsUpperA, toNat_ofNat_valid _ hv]
    simp only [Bool.and_eq_false_iff, decide_eq_false_iff_not]
    omega
  · rw [charLower, if_neg h, charIsUpperA]
    simp only [Bool.and_eq_false_iff, decide_eq_false_iff_not]
    omega

/-- A pair in `bump l t` either carries the bumped key or a key of `l`. -/
theorem mem_bump (l : List (String × Nat)) (t : String) (p : String × Nat)
    (h : p ∈ bump l t) : p.1 = t ∨ ∃ c, (p.1, c) ∈ l := by
  induction l with
  | nil =>
    simp only [bump, List.mem_singleton] at h
    exact Or.inl (by rw [h])
  | cons q r ih =>
    obtain ⟨k, c⟩ := q
    by_cases hk : k = t
    · rw [bump, if_pos hk] at h
      rcases List.mem_cons.mp h with h | h
      · exact Or.inl (by rw [h, hk])
      · exact Or.inr ⟨p.2, List.mem_cons_of_mem _ h⟩
    · rw [bump, if_neg hk] at h
      rcases List.mem_cons.mp h with h | h
      · exact Or.inr ⟨c, by rw [h]; exact List.mem_cons_self _ _⟩
      · rcases ih h with h' | ⟨c', hc'⟩
        · exact Or.inl h'
        · exact Or.inr ⟨c', List.mem_cons_of_mem _ hc'⟩

/-- Keys accumulated by the counting fold come from the accumulator or
from the token list. -/
theorem counter_key_mem : ∀ (ts : List String) (acc : List (String × Nat))
    (p : String × Nat), p ∈ ts.foldl bump acc →
    (∃ c, (p.1, c) ∈ acc) ∨ p.1 ∈ ts := by
  intro ts
  induction ts with
  | nil => exact fun acc p h => Or.inl ⟨p.2, h⟩
  | cons t ts ih =>
    intro acc p h
    rcases ih (bump acc t) p h with ⟨c, hc⟩ | h'
    · rcases mem_bump acc t (p.1, c) hc with h1 | ⟨c', hc'⟩
      · exact Or.inr (h1 ▸ List.mem_cons_self _ _)
      · exact Or.inl ⟨c', hc'⟩
    · exact Or.inr (List.mem_cons_of_mem _ h')

/-- Every key of `counter ts` occurs in `ts`. -/
theorem mem_counter (ts : List String) (p : String × Nat)
    (h : p ∈ counter ts) : p.1 ∈ ts :=
  (counter_key_mem ts [] p h).resolve_left (by simp)

/-- `insertDesc` permutes consing. -/
theorem insertDesc_perm (p : String × Nat) (l : List (String × Nat)) :
    (insertDesc p l).Perm (p :: l) := by
  induction l with
  | nil => exact List.Perm.refl _
  | cons q qs ih =>
    by_cases h : p.2 < q.2
    · rw [insertDesc, if_pos h]
      exact (ih.cons q).trans (List.Perm.swap p q qs)
    · rw [insertDesc, if_neg h]

/-- The stable sort permutes its input. -/
theorem sortDesc_perm (l : List (String × Nat)) : (sortDesc l).Perm l := by
  induction l with
  | nil => exact List.Perm.refl _
  | cons x xs ih =>
    exact (insertDesc_perm x (sortDesc xs)).trans (ih.cons x)

/-- Inserting into a count-descending list keeps it count-descending. -/
theorem insertDesc_pairwise (p : String × Nat) (l : List (String × Nat))
    (h : l.Pairwise (fun a b => b.2 ≤ a.2)) :
    (insertDesc p l).Pairwise (fun a b => b.2 ≤ a.2) := by
  induction l with
  | nil => simp [insertDesc]
  | cons q qs ih =>
    rw [List.pairwise_cons] at h
    obtain ⟨hq, hqs⟩ := h
    by_cases hc : p.2 < q.2
    · rw [insertDesc, if_pos hc]
      rw [List.pairwise_cons]
      refine ⟨fun y hy => ?_, ih hqs⟩
      rcases List.mem_cons.mp ((insertDesc_perm p qs).mem_iff.mp hy) with rfl | hy'
      · exact le_of_lt hc
      · exact hq y hy'
    · rw [insertDesc, if_neg hc]
      rw [List.pairwise_cons]
      refine ⟨fun y hy => ?_, List.pairwise_cons.mpr ⟨hq, hqs⟩⟩
      rcases List.mem_cons.mp hy with rfl | hy'
      · omega
      · have := hq y hy'
        omega

/-- The stable sort's output is count-descending. -/
theorem sortDesc_pairwise (l : List (String × Nat)) :
    (sortDesc l).Pairwise (fun a b => b.2 ≤ a.2) := by
  induction l with
  | nil => simp [sortDesc]
  | cons x xs ih => exact insertDesc_pairwise x (sortDesc xs) ih

/-- Filtering one count class through `insertDesc`: the inserted pair
lands in front of its own class (stability), other classes are
untouched. -/
theorem filter_insertDesc (p : String × Nat) (l : List (String × Nat))
    (c : Nat) :
    (insertDesc p l).filter (fun q => q.2 = c) =
      if p.2 = c then p :: l.filter (fun q => q.2 = c)
      else l.filter (fun q => q.2 = c) := by
  induction l with
  | nil => by_cases h : p.2 = c <;> simp [insertDesc, h]
  | cons q qs ih =>
    by_cases hc : p.2 < q.2
    · rw [insertDesc, if_pos hc]
      by_cases h : p.2 = c
      · have hqc : ¬(q.2 = c) := by omega
        simp only [List.filter_cons, ih, h, if_pos]
        simp [hqc]
      · simp only [List.filter_cons, ih, h, if_neg]
        simp
    · rw [insertDesc, if_neg hc]
      by_cases h : p.2 = c <;> simp [List.filter_cons, h]

/-- The stable sort preserves each count class in order. -/
theorem filter_sortDesc (l : List (String × Nat)) (c : Nat) :
    (sortDesc l).filter (fun q => q.2 = c) = l.filter (fun q => q.2 = c) := by
  induction l with
  | nil => rfl
  | cons x xs ih =>
    show (insertDesc x (sortDesc xs)).filter _ = _
    rw [filter_insertDesc]
    by_cases h : x.2 = c <;> simp [h, ih, List.filter_cons]

/-- A filtered prefix is a prefix of the filtered list. -/
theorem filter_take {α : Type} (l : List α) (p : α → Bool) :
    ∀ n, ∃ m, (l.take n).filter p = (l.filter p).take m := by
  induction l with
  | nil => exact fun n => ⟨0, by simp⟩
  | cons x xs ih =>
    intro n
    cases n with
    | zero => exact ⟨0, by simp⟩
    | succ n =>
      obtain ⟨m, hm⟩ := ih n
      by_cases h : p x
      · exact ⟨m + 1, by simp [List.filter_cons, h, hm]⟩
      · exact ⟨m, by simp [List.filter_cons, h, hm]⟩

/-- Taking the length of a taken prefix returns that prefix. -/
theorem take_length_take {α : Type} (l : List α) (m : Nat) :
    l.take ((l.take m).length) = l.take m := by
  rw [List.length_take]
  rcases Nat.le_total m l.length with h | h
  · rw [Nat.min_eq_left h]
  · rw [Nat.min_eq_right h, List.take_length, List.take_of_length_le h]

/-- A field produced by the whitespace splitter only holds characters of
the accumulator or of the remaining input. -/
theorem splitWsAux_chars_subset : ∀ (rest acc : List Char) (t : String),
    t ∈ splitWsAux acc rest → ∀ c ∈ t.data, c ∈ acc ∨ c ∈ rest := by
  intro rest
  induction rest with
  | nil =>
    intro acc t ht c hc
    by_cases h : acc.isEmpty
    · rw [splitWsAux, if_pos h] at ht
      cases ht
    · rw [splitWsAux, if_neg h] at ht
      rcases List.mem_singleton.mp ht with rfl
      exact Or.inl (List.mem_reverse.mp hc)
  | cons c0 cs ih =>
    intro acc t ht c hc
    by_cases hws : c0.isWhitespace
    · rw [splitWsAux, if_pos hws] at ht
      by_cases he : acc.isEmpty
      · rw [if_pos he] at ht
        rcases ih [] t ht c hc with h | h
        · cases h
        · exact Or.inr (List.mem_cons_of_mem _ h)
      · rw [if_neg he] at ht
        rcases List.mem_cons.mp ht with rfl | ht'
        · exact Or.inl (List.mem_reverse.mp hc)
        · rcases ih [] t ht' c hc with h | h
          · cases h
          · exact Or.inr (List.mem_cons_of_mem _ h)
    · rw [splitWsAux, if_neg hws] at ht
      rcases ih (c0 :: acc) t ht c hc with h | h
      · rcases List.mem_cons.mp h with rfl | h'
        · exact Or.inr (List.mem_cons_self _ _)
        · exact Or.inl h'
      · exact Or.inr (List.mem_cons_of_mem _ h)

/-- `str.split()` emits only characters of its input. -/
theorem splitWs_chars_subset (s t : String) (ht : t ∈ pySplit s) :
    ∀ c ∈ t.data, c ∈ s.data := by
  intro c hc
  rcases splitWsAux_chars_subset s.data [] t ht c hc with h | h
  · cases h
  · exact h

/-- C6: for any tokenizer that only emits characters of its input, every
entry of `get_word_frequency` with a truthy `top_n` has a key of length
at least `min_word_length`, not a stopword, containing no uppercase
ASCII letter and no punctuation character; the entries are ordered by
descending count, and within one count value they keep the counter's
first-occurrence order (a prefix of each count class); concretely, on
`"the cat sat on the mat the cat ran"` with stopwords `{the, on}`,
minimum length 3 and `top_n = 3`, the result is
`[("cat", 2), ("sat", 1), ("mat", 1)]` — `cat` first with count 2. -/
theorem get_word_frequency_spec (ta : TextAnalyzer) (n min_word_length : Nat)
    (hn : ¬(n = 0))
    (htok : ∀ s t, t ∈ ta.tokenize s → ∀ c ∈ t.data, c ∈ s.data) :
    (∀ p ∈ get_word_frequency ta (some n) min_word_length,
      min_word_length ≤ p.1.length ∧ p.1 ∉ ta.stop_words ∧
      (∀ c ∈ p.1.data, charIsUpperA c = false ∧ c ∉ punctuation)) ∧
    (get_word_frequency ta (some n) min_word_length).Pairwise
      (fun a b => b.2 ≤ a.2) ∧
    (∀ c, (get_word_frequency ta (some n) min_word_length).filter
        (fun q => q.2 = c) =
      ((counter ((preprocess ta true true true).filter
          (fun t => min_word_length ≤ t.length))).filter
        (fun q => q.2 = c)).take
        (((get_word_frequency ta (some n) min_word_length).filter
          (fun q => q.2 = c)).length)) ∧
    get_word_frequency catAnalyzer (some 3) 3 =
      [("cat", 2), ("sat", 1), ("mat", 1)] := by
  have hgwf : get_word_frequency ta (some n) min_word_length =
      (sortDesc (counter ((preprocess ta true true true).filter
        (fun t => min_word_length ≤ t.length)))).take n := by
    simp [get_word_frequency, most_common, hn]
  refine ⟨?_, ?_, ?_, by decide⟩
  · intro p hp
    rw [hgwf] at hp
    have hsort : p ∈ sortDesc (counter ((preprocess ta true true true).filter
        (fun t => min_word_length ≤ t.length))) :=
      List.Sublist.mem hp (List.take_sublist n _)
    have hcnt : p ∈ counter ((preprocess ta true true true).filter
        (fun t => min_word_length ≤ t.length)) :=
      (sortDesc_perm _).mem_iff.mp hsort
    have hkey : p.1 ∈ (preprocess ta true true true).filter
        (fun t => min_word_length ≤ t.length) := mem_counter _ _ hcnt
    rw [List.mem_filter] at hkey
    obtain ⟨hpre, hlen⟩ := hkey
    have hlen' : min_word_length ≤ p.1.length := by simpa using hlen
    have hpre2 : p.1 ∈ (ta.tokenize (removePunct (strLower ta.text))).filter
        (fun t => !(ta.stop_words.contains t)) := hpre
    rw [List.mem_filter] at hpre2
    refine ⟨hlen', ?_, fun c hc => ?_⟩
    · have := hpre2.2
      simpa using this
    · have hchar : c ∈ (removePunct (strLower ta.text)).data :=
        htok _ _ hpre2.1 c hc
      have hchar2 : c ∈ (strLower ta.text).data.filter
          (fun c => !(punctuation.contains c)) := hchar
      rw [List.mem_filter] at hchar2
      obtain ⟨hlow, hnp⟩ := hchar2
      constructor
      · have hlow2 : c ∈ ta.text.data.map charLower := hlow
        rw [List.mem_map] at hlow2
        obtain ⟨d, _, rfl⟩ := hlow2
        exact charLower_not_upper d
      · have := hnp
        simpa using this
  · rw [hgwf]
    exact (sortDesc_pairwise _).sublist (List.take_sublist n _)
  · intro c
    rw [hgwf]
    obtain ⟨m, hm⟩ := filter_take
      (sortDesc (counter ((preprocess ta true true true).filter
        (fun t => min_word_length ≤ t.length)))) (fun q => q.2 = c) n
    rw [hm, filter_sortDesc, take_length_take]

/-- Witness for C6 on the concrete analyzer of the spec's test (the
whitespace tokenizer satisfies the character-preservation hypothesis). -/
theorem get_word_frequency_witness :
    get_word_frequency catAnalyzer (some 3) 3 =
      [("cat", 2), ("sat", 1), ("mat", 1)] :=
  (get_word_frequency_spec catAnalyzer 3 3 (by decide)
    (fun s t ht c hc => splitWs_chars_subset s t ht c hc)).2.2.2

/-- Element traversal distributes over sibling concatenation. -/
theorem nodesElems_append (a b : List HNode) :
    nodesElems (a ++ b) = nodesElems a ++ nodesElems b := by
  induction a with
  | nil => rfl
  | cons x xs ih => simp [nodesElems, ih]

mutual
/-- No element of a pruned subtree carries a removed tag. -/
theorem pruneNode_nobad (bad : List String) :
    ∀ (n m : HNode), m ∈ nodesElems (pruneNode bad n) → tagOf m ∉ bad
  | .text _, m => by simp [pruneNode, nodesElems, nodeElems]
  | .elem t a cs, m => by
    by_cases h : t ∈ bad
    · simp [pruneNode, h, nodesElems]
    · intro hm
      rw [pruneNode, if_neg h] at hm
      have hm' : m ∈ nodeElems (.elem t a (pruneNodes bad cs)) := by
        simpa [nodesElems] using hm
      rw [nodeElems] at hm'
      rcases List.mem_cons.mp hm' with rfl | hm''
      · simpa [tagOf] using h
      · exact pruneNodes_nobad bad cs m hm''

/-- No element of a pruned forest carries a removed tag. -/
theorem pruneNodes_nobad (bad : List String) :
    ∀ (l : List HNode) (m : HNode), m ∈ nodesElems (pruneNodes bad l) →
      tagOf m ∉ bad
  | [], m => by simp [pruneNodes, nodesElems]
  | n :: ns, m => by
    intro hm
    rw [pruneNodes, nodesElems_append] at hm
    rcases List.mem_append.mp hm with h | h
    · exact pruneNode_nobad bad n m h
    · exact pruneNodes_nobad bad ns m h
end

/-- The space character is whitespace. -/
theorem spc_isWhitespace : spc.isWhitespace = true := by decide

/-- Every whitespace character surviving `collapseWS` is the space. -/
theorem mem_collapseWS_ws (l : List Char) (c : Char) (hc : c ∈ collapseWS l)
    (hws : c.isWhitespace) : c = spc := by
  induction l with
  | nil => simp [collapseWS] at hc
  | cons c0 cs ih =>
    by_cases h0 : c0.isWhitespace
    · by_cases hh : (cs.head?.elim false Char.isWhitespace)
      · rw [collapseWS, if_pos h0, if_pos hh] at hc
        exact ih hc
      · rw [collapseWS, if_pos h0, if_neg hh] at hc
        rcases List.mem_cons.mp hc with rfl | hc'
        · rfl
        · exact ih hc'
    · rw [collapseWS, if_neg h0] at hc
      rcases List.mem_cons.mp hc with rfl | hc'
      · exact absurd hws h0
      · exact ih hc'

/-- `collapseWS` never emits two adjacent spaces. -/
theorem collapseWS_chain (l : List Char) :
    (collapseWS l).Chain' (fun a b => ¬(a = spc ∧ b = spc)) := by
  induction l with
  | nil => simp [collapseWS]
  | cons c0 cs ih =>
    by_cases h0 : c0.isWhitespace
    · cases cs with
      | nil => simp [collapseWS, h0]
      | cons d t =>
        by_cases hd : d.isWhitespace
        · rw [collapseWS, if_pos h0, if_pos (by simp [hd])]
          exact ih
        · rw [collapseWS, if_pos h0, if_neg (by simp [hd])]
          rw [List.chain'_cons']
          refine ⟨fun b hb hcon => ?_, ih⟩
          rw [collapseWS, if_neg hd] at hb
          simp only [List.head?_cons, Option.mem_def, Option.some.injEq] at hb
          apply hd
          rw [hb, hcon.2]
          exact spc_isWhitespace
    · rw [collapseWS, if_neg h0]
      rw [List.chain'_cons']
      refine ⟨fun b hb hcon => ?_, ih⟩
      exact h0 (by rw [hcon.1]; exact spc_isWhitespace)

/-- The head of a `dropWhile` never satisfies the dropped predicate. -/
theorem head?_dropWhile_false {α : Type} (p : α → Bool) (l : List α) (c : α)
    (h : (l.dropWhile p).head? = some c) : p c = false := by
  induction l with
  | nil => cases h
  | cons x xs ih =>
    by_cases hx : p x
    · rw [List.dropWhile_cons, if_pos hx] at h
      exact ih h
    · rw [List.dropWhile_cons, if_neg hx] at h
      rw [List.head?_cons] at h
      injection h with h
      rw [← h]
      exact Bool.eq_false_iff.mpr hx

/-- A non-empty suffix determines the last element. -/
theorem getLast?_suffix {α : Type} {l₁ l₂ : List α} (h : l₁ <:+ l₂) (c : α)
    (hc : l₁.getLast? = some c) : l₂.getLast? = some c := by
  obtain ⟨t, rfl⟩ := h
  rw [List.getLast?_append, hc]
  rfl

/-- `trimChars` preserves adjacency constraints. -/
theorem trimChars_chain (l : List Char) {R : Char → Char → Prop}
    (h : l.Chain' R) : (trimChars l).Chain' R := by
  have hK : (l.dropWhile Char.isWhitespace).Chain' R :=
    h.suffix (List.dropWhile_suffix _)
  have hRK : ((l.dropWhile Char.isWhitespace).reverse).Chain' (flip R) :=
    List.chain'_reverse.mpr hK
  have hM : (((l.dropWhile Char.isWhitespace).reverse).dropWhile
      Char.isWhitespace).Chain' (flip R) :=
    hRK.suffix (List.dropWhile_suffix _)
  exact List.chain'_reverse.mpr hM

/-- `trimChars` keeps only characters of its input. -/
theorem trimChars_subset (l : List Char) (c : Char) (hc : c ∈ trimChars l) :
    c ∈ l := by
  rw [trimChars, List.mem_reverse] at hc
  have h1 : c ∈ (l.dropWhile Char.isWhitespace).reverse :=
    List.Sublist.mem hc (List.dropWhile_suffix _).sublist
  rw [List.mem_reverse] at h1
  exact List.Sublist.mem h1 (List.dropWhile_suffix _).sublist

/-- The first character of a stripped string is not whitespace. -/
theorem trimChars_head (l : List Char) (c : Char)
    (h : (trimChars l).head? = some c) : c.isWhitespace = false := by
  rw [trimChars, List.head?_reverse] at h
  have hlast : ((l.dropWhile Char.isWhitespace).reverse).getLast? = some c :=
    getLast?_suffix (List.dropWhile_suffix _) c h
  rw [List.getLast?_reverse] at hlast
  exact head?_dropWhile_false _ _ _ hlast

/-- The last character of a stripped string is not whitespace. -/
theorem trimChars_last (l : List Char) (c : Char)
    (h : (trimChars l).getLast? = some c) : c.isWhitespace = false := by
  rw [trimChars, List.getLast?_reverse] at h
  exact head?_dropWhile_false _ _ _ h

/-- C5: the output of `get_clean_text` is computed from the document with
every `script`, `style`, `head`, `header`, `footer`, `nav` subtree
removed — two documents with the same pruned form give the same output,
and no element of the pruned form carries a removed tag, so no text of
those subtrees reaches the output; the output is whitespace-normalised:
every whitespace character in it is a plain space, no two spaces are
adjacent, and it neither starts nor ends with whitespace; on an empty
document (falsy html or no nodes) the result is the empty string, not an
absent value. -/
theorem get_clean_text_spec :
    (∀ s₁ s₂ : List HNode,
      pruneNodes removedTags s₁ = pruneNodes removedTags s₂ →
      (get_clean_text (some s₁)).1 = (get_clean_text (some s₂)).1) ∧
    (∀ (s : List HNode), ∀ m ∈ nodesElems (pruneNodes removedTags s),
      tagOf m ∉ removedTags) ∧
    (∀ st : ParserState,
      (∀ c ∈ (get_clean_text st).1.data, c.isWhitespace → c = spc) ∧
      (get_clean_text st).1.data.Chain' (fun a b => ¬(a = spc ∧ b = spc)) ∧
      (∀ c, (get_clean_text st).1.data.head? = some c →
        c.isWhitespace = false) ∧
      (∀ c, (get_clean_text st).1.data.getLast? = some c →
        c.isWhitespace = false)) ∧
    (get_clean_text none).1 = "" ∧ (get_clean_text (some [])).1 = "" := by
  refine ⟨fun s₁ s₂ h => by simp [get_clean_text, h],
          fun s m hm => pruneNodes_nobad removedTags s m hm,
          fun st => ?_, rfl, by decide⟩
  cases st with
  | none =>
    exact ⟨fun c hc => by simp [get_clean_text] at hc,
           by simp [get_clean_text],
           fun c hc => by simp [get_clean_text] at hc,
           fun c hc => by simp [get_clean_text] at hc⟩
  | some soup =>
    exact ⟨fun c hc hws => mem_collapseWS_ws _ c (trimChars_subset _ c hc) hws,
           trimChars_chain _ (collapseWS_chain _),
           fun c hc => trimChars_head _ c hc,
           fun c hc => trimChars_last _ c hc⟩

/-- Witness for C5: two documents that differ only inside removed
subtrees (a `script` against a `nav` with different contents) produce the
same clean text, and the surviving `div` element of a pruned document
does not carry a removed tag. -/
theorem get_clean_text_witness :
    (get_clean_text (some [.elem "script" [] [.text "var x"], .text "a"])).1 =
      (get_clean_text (some [.elem "nav" [] [.text "zz"], .text "a"])).1 ∧
    tagOf (.elem "div" [] [.text "a"]) ∉ removedTags :=
  ⟨get_clean_text_spec.1 [.elem "script" [] [.text "var x"], .text "a"]
      [.elem "nav" [] [.text "zz"], .text "a"] (by decide),
   get_clean_text_spec.2.1 [.elem "div" [] [.text "a"]]
      (.elem "div" [] [.text "a"]) (by decide)⟩

end Scraper
